import Mathlib

/-!
Verification of the phi accrual failure detector estimator: a shallow
embedding of the ping-window accumulator and the derived normal-distribution
snapshot, with theorems about the suspicion function `phi`, the tail
probability `integral`, its bisection inverse `integral_inv`, and the
window's capping and assertion behaviour.  Machine floating point is
idealised as real arithmetic; Rust `Instant`/`Duration` are nanosecond
counts, and `as_millis` is truncating division.
-/

namespace PhiDetector

open scoped Classical

/-- Outcome of a Rust computation guarded by `assert!`: either every asserted
condition held and a value is produced, or an assertion failed, which aborts
the computation (no value of any kind is returned to the caller). -/
inductive AssertOr (α : Type) where
  | fail : AssertOr α
  | ok : α → AssertOr α

/-- Rust `Instant`, as a count of nanoseconds. -/
abbrev Instant := ℕ

/-- Rust `Duration`, as a count of nanoseconds. -/
abbrev Duration := ℕ

/-- `Duration::as_millis`: whole milliseconds, truncating. -/
def Duration.as_millis (d : Duration) : ℕ := d / 1000000

/-- `Duration::from_millis`. -/
def Duration.from_millis (m : ℕ) : Duration := m * 1000000

/-- `phi_from_prob(x) = -log10(x)`, with the source's `assert!(0. <= x && x <= 1.)`. -/
noncomputable def phi_from_prob (x : ℝ) : AssertOr ℝ :=
  if 0 ≤ x ∧ x ≤ 1 then AssertOr.ok (-Real.logb 10 x) else AssertOr.fail

/-- `prob_from_phi(x) = exp(-x)` (natural exponential, as in the source). -/
noncomputable def prob_from_phi (x : ℝ) : ℝ := Real.exp (-x)

/-- The ping window: sample count `n`, instant of the last accepted ping, and
the running sums `sum` (of intervals, ms) and `sum2` (of squared deviations, ms²). -/
structure PingWindow where
  n : ℕ
  last_ping : Instant
  sum : ℝ
  sum2 : ℝ

/-- `PingWindow::new()`: seeds two synthetic 5000 ms samples
(`deadline = 5 s`, `sum2 = 2*(x*0.2)^2`), with `last_ping` the construction instant. -/
noncomputable def PingWindow.new (now : Instant) : PingWindow :=
  let deadline : Duration := 5000000000
  let x : ℝ := (Duration.as_millis deadline : ℝ)
  { n := 2
    last_ping := now
    sum := x * 2
    sum2 := 2 * (x * 0.2) * (x * 0.2) }

/-- `PingWindow::add_ping`: asserts `ping > last_ping`; at the 10000 cap first
rescales both sums by `(n-1)/n` and decrements `n`; then folds in the new
interval and accumulates the squared deviation from the updated mean. -/
noncomputable def PingWindow.add_ping (w : PingWindow) (ping : Instant) :
    AssertOr PingWindow :=
  if w.last_ping < ping then
    let n0 : ℕ := if w.n = 10000 then w.n - 1 else w.n
    let sum0 : ℝ :=
      if w.n = 10000 then w.sum / (w.n : ℝ) * ((w.n - 1 : ℕ) : ℝ) else w.sum
    let sum20 : ℝ :=
      if w.n = 10000 then w.sum2 / (w.n : ℝ) * ((w.n - 1 : ℕ) : ℝ) else w.sum2
    let v : ℝ := (Duration.as_millis (ping - w.last_ping) : ℝ)
    let sum1 : ℝ := sum0 + v
    let n1 : ℕ := n0 + 1
    let mu : ℝ := sum1 / (n1 : ℝ)
    AssertOr.ok { n := n1, last_ping := ping, sum := sum1,
                  sum2 := sum20 + (v - mu) * (v - mu) }
  else AssertOr.fail

/-- The normal-distribution snapshot: mean `mu` and standard deviation `sigma`, in ms. -/
structure NormalDist where
  mu : ℝ
  sigma : ℝ

/-- `PingWindow::normal_dist()`: `mu = sum/n`, `sigma = sqrt(sum2/n)`. -/
noncomputable def PingWindow.normal_dist (w : PingWindow) : NormalDist :=
  { mu := w.sum / (w.n : ℝ), sigma := Real.sqrt (w.sum2 / (w.n : ℝ)) }

/-- `NormalDist::mu()`: the mean as a duration (`mu as u64` milliseconds). -/
noncomputable def NormalDist.mu_duration (d : NormalDist) : Duration :=
  Duration.from_millis ⌊d.mu⌋₊

/-- `NormalDist::sigma()`: the standard deviation as a duration. -/
noncomputable def NormalDist.sigma_duration (d : NormalDist) : Duration :=
  Duration.from_millis ⌊d.sigma⌋₊

/-- `NormalDist::integral(x)`: the logistic approximation of the right tail
probability, `y = (x - mu)/sigma`, `e = exp(-y*(1.5976 + 0.070566*y^2))`,
giving `e/(1+e)` for `x > mu` and `1 - 1/(1+e)` otherwise. -/
noncomputable def NormalDist.integral (d : NormalDist) (x : ℝ) : ℝ :=
  let y : ℝ := (x - d.mu) / d.sigma
  let e : ℝ := Real.exp (-y * (1.5976 + 0.070566 * y * y))
  if d.mu < x then e / (1 + e) else 1 - 1 / (1 + e)

/-- The bisection loop of `NormalDist::integral_inv`, with explicit fuel:
`none` means the loop is still running after `fuel` iterations.  The loop
continues while `|v - integral(mid)| > eps` (`eps = 1e-10`), moving `upper`
down when `integral(mid) < v` and `lower` up otherwise. -/
noncomputable def NormalDist.integral_inv_go (d : NormalDist) (v : ℝ) :
    ℕ → ℝ → ℝ → ℝ → Option ℝ
  | 0, _, _, _ => none
  | fuel + 1, lower, upper, mid =>
    if 0.0000000001 < |v - d.integral mid| then
      if d.integral mid < v then
        d.integral_inv_go v fuel lower mid ((lower + mid) / 2)
      else
        d.integral_inv_go v fuel mid upper ((mid + upper) / 2)
    else some mid

/-- `NormalDist::integral_inv(v)`: asserts `v > 0`, then bisects over
`[-1e18, 1e18]` starting from `mid = 0`. -/
noncomputable def NormalDist.integral_inv (d : NormalDist) (v : ℝ) (fuel : ℕ) :
    AssertOr (Option ℝ) :=
  if 0 < v then AssertOr.ok (d.integral_inv_go v fuel (-1e18) 1e18 0)
  else AssertOr.fail

/-- `NormalDist::phi_inv(phi) = from_millis(integral_inv(prob_from_phi(phi)) as u64)`. -/
noncomputable def NormalDist.phi_inv (d : NormalDist) (p : ℝ) (fuel : ℕ) :
    AssertOr (Option Duration) :=
  match d.integral_inv (prob_from_phi p) fuel with
  | AssertOr.fail => AssertOr.fail
  | AssertOr.ok none => AssertOr.ok none
  | AssertOr.ok (some x) => AssertOr.ok (some (Duration.from_millis ⌊x⌋₊))

/-- `NormalDist::phi(elapsed) = phi_from_prob(integral(elapsed.as_millis()))`. -/
noncomputable def NormalDist.phi (d : NormalDist) (elapsed : Duration) : AssertOr ℝ :=
  phi_from_prob (d.integral (Duration.as_millis elapsed : ℝ))

/-- Ping-window states reachable from construction by successful `add_ping` calls. -/
inductive Reachable : PingWindow → Prop where
  | base (t0 : Instant) : Reachable (PingWindow.new t0)
  | step (w : PingWindow) (t : Instant) (w' : PingWindow) :
      Reachable w → w.add_ping t = AssertOr.ok w' → Reachable w'

/-- Feed `k` heartbeats, each one nanosecond after the previous accepted one. -/
noncomputable def feedOnes : PingWindow → ℕ → AssertOr PingWindow
  | w, 0 => AssertOr.ok w
  | w, k + 1 =>
    match w.add_ping (w.last_ping + 1) with
    | AssertOr.fail => AssertOr.fail
    | AssertOr.ok w1 => feedOnes w1 k

/-- The cubic exponent of the logistic tail approximation. -/
def expArg (y : ℝ) : ℝ := y * (1.5976 + 0.070566 * y * y)

/-- `exp(-expArg y)`, the `e` of `NormalDist::integral` as a function of `y`. -/
noncomputable def gauss (y : ℝ) : ℝ := Real.exp (-expArg y)

/-- The tail probability as a function of the normalised deviation `y`. -/
noncomputable def logistic (y : ℝ) : ℝ := gauss y / (1 + gauss y)

/-- When the bisection loop has exited with a value, that value lies within
1 ms of `x0` (trivially true while the loop is still running or the
`v > 0` assertion failed). -/
def ReturnsNear (x0 : ℝ) : AssertOr (Option ℝ) → Prop
  | AssertOr.ok (some m) => |m - x0| < 1
  | _ => True

/-- Whenever `phi_inv` has returned a deadline, `phi` at that deadline is
defined and stays below `bound`. -/
def PhiAtMostOn (d : NormalDist) (bound : ℝ) : AssertOr (Option Duration) → Prop
  | AssertOr.ok (some dur) => ∃ p, d.phi dur = AssertOr.ok p ∧ p < bound
  | _ => True

/-- Invariant of the bisection loop: each bound is either still pristine or
has been set from a midpoint that failed the convergence test on its side. -/
def BisectInv (d : NormalDist) (v l u : ℝ) : Prop :=
  (l = -1e18 ∨ v + 0.0000000001 < d.integral l) ∧
  (u = 1e18 ∨ d.integral u < v - 0.0000000001) ∧
  l < u ∧ -1e18 ≤ l ∧ u ≤ 1e18

/-! ## Basic facts about the embedded definitions -/

theorem gauss_pos (y : ℝ) : 0 < gauss y := Real.exp_pos _

theorem integral_eq_logistic (d : NormalDist) (x : ℝ) :
    d.integral x = logistic ((x - d.mu) / d.sigma) := by
  simp only [NormalDist.integral, logistic, gauss, expArg]
  set y := (x - d.mu) / d.sigma with hy
  have he : (0 : ℝ) < Real.exp (-(y * (1.5976 + 0.070566 * y * y))) := Real.exp_pos _
  have harg : -y * (1.5976 + 0.070566 * y * y) = -(y * (1.5976 + 0.070566 * y * y)) := by
    ring
  rw [harg]
  split
  · rfl
  · field_simp

theorem integral_bounds (d : NormalDist) (x : ℝ) :
    0 ≤ d.integral x ∧ d.integral x ≤ 1 := by
  rw [integral_eq_logistic]
  unfold logistic
  have he := gauss_pos ((x - d.mu) / d.sigma)
  constructor
  · positivity
  · rw [div_le_one (by linarith)]
    linarith

theorem normal_dist_new (t0 : Instant) :
    (PingWindow.new t0).normal_dist = ⟨5000, 1000⟩ := by
  have hx : ((Duration.as_millis 5000000000 : ℕ) : ℝ) = 5000 := by
    norm_num [Duration.as_millis]
  have hsq : Real.sqrt 1000000 = 1000 := by
    rw [show (1000000 : ℝ) = 1000 ^ 2 by norm_num]
    exact Real.sqrt_sq (by norm_num)
  simp only [PingWindow.normal_dist, PingWindow.new, hx, NormalDist.mk.injEq]
  norm_num
  exact hsq

/-! ## C9: cold-start prior -/

/-- C9: after construction and zero heartbeats the snapshot's mean is the
synthetic prior mean of 5000 ms, and the tail probability evaluated exactly
at the mean is 1/2. -/
theorem c9_cold_start_prior (t0 : Instant) :
    (PingWindow.new t0).normal_dist.mu_duration = Duration.from_millis 5000 ∧
    (PingWindow.new t0).normal_dist.integral 5000 = 1 / 2 := by
  rw [normal_dist_new]
  constructor
  · unfold NormalDist.mu_duration
    norm_num
  · unfold NormalDist.integral
    norm_num [Real.exp_zero]

/-! ## C1: the two phi/probability helpers are not mutually inverse -/

/-- C1: at `x = 1/10`, `phi_from_prob` yields the suspicion 1 (since
`-log10(1/10) = 1`), but `prob_from_phi 1 = exp(-1) > 1/10`: the natural
exponential does not invert the base-10 logarithm, so the round trip
`prob_from_phi (phi_from_prob x) = x` fails. -/
theorem c1_phi_prob_not_inverse :
    phi_from_prob (1 / 10) = AssertOr.ok 1 ∧ 1 / 10 < prob_from_phi 1 := by
  constructor
  · unfold phi_from_prob
    rw [if_pos (by norm_num : (0:ℝ) ≤ 1/10 ∧ (1:ℝ)/10 ≤ 1)]
    have : Real.logb 10 (1/10) = -1 := by
      rw [show (1/10 : ℝ) = (10:ℝ)⁻¹ by norm_num, Real.logb_inv,
        Real.logb_self_eq_one (by norm_num : (1:ℝ) < 10)]
    rw [this]
    norm_num
  · unfold prob_from_phi
    have h1 := Real.exp_one_lt_d9
    have h2 := Real.exp_pos 1
    rw [Real.exp_neg, inv_eq_one_div, lt_div_iff₀ h2]
    nlinarith

/-! ## C7: the timestamp assertion -/

theorem add_ping_cases (w : PingWindow) (t : Instant) :
    (t ≤ w.last_ping → w.add_ping t = AssertOr.fail) ∧
    (w.last_ping < t → ∃ w', w.add_ping t = AssertOr.ok w') := by
  constructor
  · intro h
    unfold PingWindow.add_ping
    rw [if_neg (not_lt.mpr h)]
  · intro h
    unfold PingWindow.add_ping
    rw [if_pos h]
    exact ⟨_, rfl⟩

/-- C7 (amended): a heartbeat whose timestamp is not strictly greater than
`last_ping` hits the `assert!` and aborts — modelled as `AssertOr.fail`, with
no window value produced (so the caller's state is untouched); a strictly
greater timestamp always succeeds. -/
theorem c7_add_ping_assertion (w : PingWindow) (t : Instant) :
    (t ≤ w.last_ping → w.add_ping t = AssertOr.fail) ∧
    (w.last_ping < t → ∃ w', w.add_ping t = AssertOr.ok w') :=
  add_ping_cases w t

/-- C7 counterexample: on the stale timestamp 0 the call does not surface an
error value — it aborts via the assertion (`AssertOr.fail`), contradicting
"surfaced as an explicit error/result value rather than terminating the
process". -/
theorem c7_assert_aborts_counterexample :
    (PingWindow.new 0).add_ping 0 = AssertOr.fail :=
  (add_ping_cases (PingWindow.new 0) 0).1 (by rfl)

/-! ## The window invariant: C6 and C10 -/

theorem add_ping_ok_spec (w : PingWindow) (t : Instant) (h : w.last_ping < t) :
    ∃ w', w.add_ping t = AssertOr.ok w' ∧
      w'.n = (if w.n = 10000 then w.n - 1 else w.n) + 1 ∧
      w'.last_ping = t ∧
      (0 < w.sum2 → 0 < (w.n : ℝ) → 0 < w'.sum2) := by
  unfold PingWindow.add_ping
  rw [if_pos h]
  refine ⟨_, rfl, rfl, rfl, ?_⟩
  intro hs hn
  refine add_pos_of_pos_of_nonneg ?_ (mul_self_nonneg _)
  split
  · next hc =>
    rw [hc]
    apply mul_pos (div_pos hs (by rw [hc] at hn; exact hn))
    norm_num
  · exact hs

theorem reachable_invariant (w : PingWindow) (h : Reachable w) :
    0 < w.sum2 ∧ 2 ≤ w.n ∧ w.n ≤ 10000 := by
  induction h with
  | base t0 =>
    refine ⟨?_, le_refl 2, by show (2:ℕ) ≤ 10000; norm_num⟩
    simp only [PingWindow.new]
    norm_num [Duration.as_millis]
  | step w t w' hr heq ih =>
    obtain ⟨hs, hn2, hn10⟩ := ih
    by_cases hlt : w.last_ping < t
    · obtain ⟨w'', heq2, hn, hl, hpos⟩ := add_ping_ok_spec w t hlt
      rw [heq2] at heq
      cases heq
      have hnR : (0:ℝ) < (w.n : ℝ) := by
        have : 0 < w.n := by omega
        exact_mod_cast this
      refine ⟨hpos hs hnR, ?_, ?_⟩
      · rw [hn]; split <;> omega
      · rw [hn]; split <;> omega
    · rw [(add_ping_cases w t).1 (not_lt.mp hlt)] at heq
      cases heq

theorem add_ping_n_min (w : PingWindow) (t : Instant) (h : w.last_ping < t)
    (hcap : w.n ≤ 10000) :
    ∃ w', w.add_ping t = AssertOr.ok w' ∧ w'.n = min (w.n + 1) 10000 ∧
      w'.last_ping = t := by
  obtain ⟨w', heq, hn, hl, _⟩ := add_ping_ok_spec w t h
  refine ⟨w', heq, ?_, hl⟩
  rw [hn]
  split <;> omega

theorem feedOnes_n (k : ℕ) : ∀ w : PingWindow, w.n ≤ 10000 →
    ∃ w', feedOnes w k = AssertOr.ok w' ∧ w'.n = min (w.n + k) 10000 := by
  induction k with
  | zero => exact fun w hcap => ⟨w, rfl, by omega⟩
  | succ k ih =>
    intro w hcap
    obtain ⟨w1, heq, hn, _⟩ := add_ping_n_min w (w.last_ping + 1) (Nat.lt_succ_self _) hcap
    obtain ⟨w', heq2, hn2⟩ := ih w1 (by omega)
    refine ⟨w', ?_, by omega⟩
    simp only [feedOnes, heq]
    exact heq2

/-- C6: `n` never exceeds the 10000 ceiling on any reachable state, and the
concrete trace of 10000 heartbeats followed by one more from a fresh window
leaves `n` exactly at the cap both times. -/
theorem c6_sample_count_cap :
    (∀ w : PingWindow, Reachable w → w.n ≤ 10000) ∧
    (∃ w1 w2 : PingWindow,
      feedOnes (PingWindow.new 0) 10000 = AssertOr.ok w1 ∧ w1.n = 10000 ∧
      feedOnes w1 1 = AssertOr.ok w2 ∧ w2.n = 10000) := by
  constructor
  · exact fun w h => (reachable_invariant w h).2.2
  · have hnew : (PingWindow.new 0).n = 2 := rfl
    obtain ⟨w1, h1, hn1⟩ := feedOnes_n 10000 (PingWindow.new 0) (by rw [hnew]; norm_num)
    rw [hnew] at hn1
    have hn1c : w1.n = 10000 := by omega
    obtain ⟨w2, h2, hn2⟩ := feedOnes_n 1 w1 (by omega)
    exact ⟨w1, w2, h1, hn1c, h2, by omega⟩

theorem integral_pos (d : NormalDist) (x : ℝ) : 0 < d.integral x := by
  rw [integral_eq_logistic]
  unfold logistic
  have he := gauss_pos ((x - d.mu) / d.sigma)
  exact div_pos he (by linarith)

theorem integral_lt_one (d : NormalDist) (x : ℝ) : d.integral x < 1 := by
  rw [integral_eq_logistic]
  unfold logistic
  have he := gauss_pos ((x - d.mu) / d.sigma)
  rw [div_lt_one (by linarith)]
  linarith

theorem phi_eq (d : NormalDist) (e : Duration)
    (hb : 0 ≤ d.integral ((Duration.as_millis e : ℕ) : ℝ) ∧
      d.integral ((Duration.as_millis e : ℕ) : ℝ) ≤ 1) :
    d.phi e =
      AssertOr.ok (-Real.logb 10 (d.integral ((Duration.as_millis e : ℕ) : ℝ))) := by
  unfold NormalDist.phi phi_from_prob
  rw [if_pos hb]

/-- C10: every reachable window keeps `sum2 > 0` and `n ≥ 2`, so the snapshot's
sigma is strictly positive, the tail probability always lands in `[0,1]`, and
the assertion inside `phi_from_prob` can never fire: `phi` is total on
reachable snapshots. -/
theorem c10_phi_total_on_reachable (w : PingWindow) (h : Reachable w) :
    0 < w.sum2 ∧ 2 ≤ w.n ∧ 0 < w.normal_dist.sigma ∧
    (∀ x : ℝ, 0 ≤ w.normal_dist.integral x ∧ w.normal_dist.integral x ≤ 1) ∧
    (∀ e : Duration, ∃ p, w.normal_dist.phi e = AssertOr.ok p) := by
  obtain ⟨hs, hn2, _⟩ := reachable_invariant w h
  have hnR : (0:ℝ) < (w.n : ℝ) := by
    have : 0 < w.n := by omega
    exact_mod_cast this
  have hsig : 0 < w.normal_dist.sigma := by
    simp only [PingWindow.normal_dist]
    exact Real.sqrt_pos.mpr (div_pos hs hnR)
  refine ⟨hs, hn2, hsig, fun x => integral_bounds _ x, fun e => ?_⟩
  exact ⟨_, phi_eq w.normal_dist e (integral_bounds _ _)⟩

/-- C10 witness: the freshly constructed window is reachable and satisfies
all the safety conclusions. -/
theorem c10_witness :
    0 < (PingWindow.new 0).sum2 ∧ 2 ≤ (PingWindow.new 0).n ∧
    0 < (PingWindow.new 0).normal_dist.sigma ∧
    (∀ x : ℝ, 0 ≤ (PingWindow.new 0).normal_dist.integral x ∧
      (PingWindow.new 0).normal_dist.integral x ≤ 1) ∧
    (∀ e : Duration, ∃ p, (PingWindow.new 0).normal_dist.phi e = AssertOr.ok p) :=
  c10_phi_total_on_reachable (PingWindow.new 0) (Reachable.base 0)

/-! ## Monotonicity of the tail approximation: C3 and C4 -/

theorem expArg_strictMono : StrictMono expArg := by
  intro a b hab
  unfold expArg
  nlinarith [sq_nonneg (a + b), sq_nonneg (a - b), sq_nonneg a, sq_nonneg b]

theorem gauss_strictAnti : StrictAnti gauss := by
  intro a b hab
  unfold gauss
  have := expArg_strictMono hab
  exact Real.exp_lt_exp.mpr (by linarith)

theorem logistic_strictAnti : StrictAnti logistic := by
  intro a b hab
  unfold logistic
  have ha := gauss_pos a
  have hb := gauss_pos b
  have hg : gauss b < gauss a := gauss_strictAnti hab
  rw [div_lt_div_iff₀ (by linarith) (by linarith)]
  nlinarith

theorem integral_strictAnti (d : NormalDist) (hs : 0 < d.sigma)
    (x1 x2 : ℝ) (hx : x1 < x2) : d.integral x2 < d.integral x1 := by
  rw [integral_eq_logistic, integral_eq_logistic]
  apply logistic_strictAnti
  rw [div_lt_div_iff_of_pos_right hs]
  linarith

theorem integral_anti (d : NormalDist) (hs : 0 < d.sigma)
    (x1 x2 : ℝ) (hx : x1 ≤ x2) : d.integral x2 ≤ d.integral x1 := by
  rcases eq_or_lt_of_le hx with rfl | hlt
  · exact le_refl _
  · exact le_of_lt (integral_strictAnti d hs x1 x2 hlt)

theorem integral_smaller_sigma_lt (mu sigma x : ℝ) (h0 : 0 < sigma)
    (h1 : sigma < 1) (hx : mu < x) :
    NormalDist.integral ⟨mu, sigma⟩ x < NormalDist.integral ⟨mu, 1⟩ x := by
  rw [integral_eq_logistic, integral_eq_logistic]
  apply logistic_strictAnti
  show (x - mu) / 1 < (x - mu) / sigma
  rw [div_one, lt_div_iff₀ h0]
  nlinarith

/-- C3 (amended): `integral` normalises by the stored sigma with no 1 ms
floor, so a snapshot with sub-millisecond sigma computes a strictly smaller
tail probability above the mean than the 1 ms-floored computation would. -/
theorem c3_no_sigma_floor (mu sigma x : ℝ) (h0 : 0 < sigma) (h1 : sigma < 1)
    (hx : mu < x) :
    NormalDist.integral ⟨mu, sigma⟩ x < NormalDist.integral ⟨mu, 1⟩ x :=
  integral_smaller_sigma_lt mu sigma x h0 h1 hx

/-- C3 witness: concrete instance with sigma = 1/2 ms at x one ms above the mean. -/
theorem c3_no_sigma_floor_witness :
    (0:ℝ) < 1/2 ∧ (1/2:ℝ) < 1 ∧ (0:ℝ) < 1 ∧
    NormalDist.integral ⟨0, 1/2⟩ 1 < NormalDist.integral ⟨0, 1⟩ 1 :=
  ⟨by norm_num, by norm_num, by norm_num,
    c3_no_sigma_floor 0 (1/2) 1 (by norm_num) (by norm_num) (by norm_num)⟩

/-- C3 counterexample: with sigma = 1/2 ms the computation does not proceed
as if sigma were 1 ms — the two tail probabilities differ at x = 1. -/
theorem c3_floored_sigma_counterexample :
    NormalDist.integral ⟨0, 1/2⟩ 1 ≠ NormalDist.integral ⟨0, 1⟩ 1 :=
  ne_of_lt (integral_smaller_sigma_lt 0 (1/2) 1 (by norm_num) (by norm_num) (by norm_num))

/-- C4 counterexample: the durations 1 ns and 2 ns satisfy `0 ≤ e1 < e2`, but
`phi` truncates both to 0 whole milliseconds, so the two suspicion values are
equal, not strictly ordered. -/
theorem c4_truncation_counterexample :
    ¬ ∃ p1 p2 : ℝ, (NormalDist.mk 5000 1000).phi 1 = AssertOr.ok p1 ∧
        (NormalDist.mk 5000 1000).phi 2 = AssertOr.ok p2 ∧ p1 < p2 := by
  rintro ⟨p1, p2, h1, h2, hlt⟩
  have heq : (NormalDist.mk 5000 1000).phi 1 = (NormalDist.mk 5000 1000).phi 2 := by
    unfold NormalDist.phi
    norm_num [Duration.as_millis]
  rw [heq, h2] at h1
  cases h1
  exact lt_irrefl _ hlt

/-- C4 (amended): for any snapshot with positive sigma, `phi` is strictly
increasing in the elapsed duration's whole-millisecond count (the code
truncates sub-millisecond differences away before evaluating the tail). -/
theorem c4_phi_strict_mono_millis (d : NormalDist) (hs : 0 < d.sigma)
    (e1 e2 : Duration) (h : Duration.as_millis e1 < Duration.as_millis e2) :
    ∃ p1 p2 : ℝ, d.phi e1 = AssertOr.ok p1 ∧ d.phi e2 = AssertOr.ok p2 ∧
      p1 < p2 := by
  have hb1 := integral_bounds d ((Duration.as_millis e1 : ℕ) : ℝ)
  have hb2 := integral_bounds d ((Duration.as_millis e2 : ℕ) : ℝ)
  have hlt : d.integral ((Duration.as_millis e2 : ℕ) : ℝ) <
      d.integral ((Duration.as_millis e1 : ℕ) : ℝ) :=
    integral_strictAnti d hs _ _ (by exact_mod_cast h)
  have hpos2 : 0 < d.integral ((Duration.as_millis e2 : ℕ) : ℝ) := integral_pos d _
  refine ⟨_, _, phi_eq d e1 hb1, phi_eq d e2 hb2, ?_⟩
  have := Real.logb_lt_logb (b := 10) (by norm_num) hpos2 hlt
  linarith

/-- C4 witness: the cold-start snapshot, at 0 ms versus 2 ms elapsed. -/
theorem c4_witness :
    (0:ℝ) < (NormalDist.mk 5000 1000).sigma ∧
    Duration.as_millis 0 < Duration.as_millis 2000000 ∧
    ∃ p1 p2 : ℝ, (NormalDist.mk 5000 1000).phi 0 = AssertOr.ok p1 ∧
      (NormalDist.mk 5000 1000).phi 2000000 = AssertOr.ok p2 ∧ p1 < p2 :=
  ⟨by norm_num, by norm_num [Duration.as_millis],
    c4_phi_strict_mono_millis (NormalDist.mk 5000 1000) (by norm_num) 0 2000000
      (by norm_num [Duration.as_millis])⟩

/-! ## Quantitative bounds on the tail approximation

The bisection round-trip (C8) and termination (C5) arguments need concrete
estimates: upper and lower bounds on `exp` at specific rationals, a lower
bound on how much `logistic` falls over a 1 ms step near the points under
test, and a Lipschitz-type bound tying a small bisection interval to a small
change of the tail probability. -/

theorem exp_le_inv_one_sub {x : ℝ} (h1 : x < 1) : Real.exp x ≤ 1 / (1 - x) := by
  have h2 : 1 - x ≤ Real.exp (-x) := by
    have := Real.add_one_le_exp (-x)
    linarith
  have h3 : 0 < 1 - x := by linarith
  have h4 : Real.exp x = 1 / Real.exp (-x) := by
    rw [Real.exp_neg]
    field_simp
  rw [h4]
  exact one_div_le_one_div_of_le h3 h2

theorem sq_quarter_le_exp {z : ℝ} (h0 : 0 ≤ z) : z ^ 2 / 4 ≤ Real.exp z := by
  have h1 : Real.exp ((2:ℕ) * (z / 2)) = Real.exp (z / 2) ^ 2 := Real.exp_nat_mul _ 2
  have h2 : ((2:ℕ) : ℝ) * (z / 2) = z := by push_cast; ring
  have h3 : z / 2 + 1 ≤ Real.exp (z / 2) := Real.add_one_le_exp _
  have h4 : (z / 2) ^ 2 ≤ Real.exp (z / 2) ^ 2 := by
    apply pow_le_pow_left₀ (by positivity)
    linarith
  calc z ^ 2 / 4 = (z / 2) ^ 2 := by ring
    _ ≤ Real.exp (z / 2) ^ 2 := h4
    _ = Real.exp z := by rw [← h1, h2]

theorem twenty_thousand_le_exp_ten : (20000 : ℝ) ≤ Real.exp 10 := by
  have h1 : Real.exp ((10:ℕ) * (1:ℝ)) = Real.exp 1 ^ 10 := Real.exp_nat_mul _ 10
  have h2 : ((10:ℕ) : ℝ) * (1:ℝ) = 10 := by push_cast; ring
  have h3 : (2.7182818283 : ℝ) ^ 10 ≤ Real.exp 1 ^ 10 :=
    pow_le_pow_left₀ (by norm_num) Real.exp_one_gt_d9.le 10
  have h4 : (20000 : ℝ) ≤ (2.7182818283 : ℝ) ^ 10 := by norm_num
  calc (20000:ℝ) ≤ (2.7182818283 : ℝ) ^ 10 := h4
    _ ≤ Real.exp 1 ^ 10 := h3
    _ = Real.exp 10 := by rw [← h1, h2]

theorem exp_H_le : Real.exp 16.8157 ≤ 25400000 := by
  have hsplit : (16.8157 : ℝ) = 16 + 0.8157 := by norm_num
  have h16 : Real.exp 16 = Real.exp 1 ^ 16 := by
    have h1 : Real.exp ((16:ℕ) * (1:ℝ)) = Real.exp 1 ^ 16 := Real.exp_nat_mul _ 16
    have h2 : ((16:ℕ) : ℝ) * (1:ℝ) = 16 := by push_cast; ring
    rw [← h1, h2]
  have h16b : Real.exp 1 ^ 16 ≤ (2.7182818286 : ℝ) ^ 16 :=
    pow_le_pow_left₀ (Real.exp_pos 1).le Real.exp_one_lt_d9.le 16
  have hfrac : Real.exp 0.8157 ≤ (1 / (1 - 0.40785)) ^ 2 := by
    have hh : (0.8157 : ℝ) = 0.40785 + 0.40785 := by norm_num
    rw [hh, Real.exp_add]
    have := exp_le_inv_one_sub (x := 0.40785) (by norm_num)
    have hp : (0:ℝ) < Real.exp 0.40785 := Real.exp_pos _
    nlinarith
  rw [hsplit, Real.exp_add]
  have hpos : (0:ℝ) ≤ Real.exp 0.8157 := (Real.exp_pos _).le
  calc Real.exp 16 * Real.exp 0.8157
      ≤ (2.7182818286 : ℝ) ^ 16 * ((1 / (1 - 0.40785)) ^ 2) := by
        apply mul_le_mul (h16 ▸ h16b) hfrac hpos (by positivity)
    _ ≤ 25400000 := by norm_num

theorem logistic_sub (a b : ℝ) :
    logistic a - logistic b =
      (gauss a - gauss b) / ((1 + gauss a) * (1 + gauss b)) := by
  have ha := gauss_pos a
  have hb := gauss_pos b
  unfold logistic
  field_simp
  ring

/-- Over one 1 ms step (`1/1000` in normalised units) anywhere in the band
`3.999 ≤ y ≤ 5`, the tail approximation falls by strictly more than the
bisection epsilon `1e-10`. -/
theorem logistic_gap (y : ℝ) (h1 : 3.999 ≤ y) (h2 : y ≤ 5) :
    0.0000000001 < logistic y - logistic (y + 1/1000) := by
  have hE1 := gauss_pos y
  have hE2 := gauss_pos (y + 1/1000)
  have harg1 : (10:ℝ) ≤ expArg y := by
    have hm : expArg 3.999 ≤ expArg y := expArg_strictMono.monotone h1
    have : (10:ℝ) ≤ expArg 3.999 := by unfold expArg; norm_num
    linarith
  have harg2 : (10:ℝ) ≤ expArg (y + 1/1000) := by
    have hm : expArg y ≤ expArg (y + 1/1000) := expArg_strictMono.monotone (by linarith)
    linarith
  have hsmall : ∀ z : ℝ, (10:ℝ) ≤ z → Real.exp (-z) ≤ 1/20000 := by
    intro z hz
    have ha : Real.exp (-z) ≤ Real.exp (-10) := Real.exp_le_exp.mpr (by linarith)
    have hb : Real.exp (-10 : ℝ) = 1 / Real.exp 10 := by rw [Real.exp_neg]; field_simp
    have hc : 1 / Real.exp 10 ≤ 1/20000 :=
      one_div_le_one_div_of_le (by norm_num) twenty_thousand_le_exp_ten
    linarith [hb ▸ ha]
  have hE1small : gauss y ≤ 1/20000 := hsmall _ harg1
  have hE2small : gauss (y + 1/1000) ≤ 1/20000 := hsmall _ harg2
  have hargH : expArg (y + 1/1000) ≤ 16.8157 := by
    have hm : expArg (y + 1/1000) ≤ expArg 5.001 :=
      expArg_strictMono.monotone (by linarith)
    have : expArg 5.001 ≤ 16.8157 := by unfold expArg; norm_num
    linarith
  have hE2big : 1/25400000 ≤ gauss (y + 1/1000) := by
    have ha : Real.exp (-(16.8157:ℝ)) ≤ gauss (y + 1/1000) := by
      unfold gauss
      exact Real.exp_le_exp.mpr (by linarith)
    have hb : Real.exp (-(16.8157:ℝ)) = 1 / Real.exp 16.8157 := by
      rw [Real.exp_neg]; field_simp
    have hc : (1:ℝ)/25400000 ≤ 1 / Real.exp 16.8157 :=
      one_div_le_one_div_of_le (Real.exp_pos _) exp_H_le
    linarith [hb ▸ ha]
  have hdh : 0.00498 ≤ expArg (y + 1/1000) - expArg y := by
    unfold expArg
    nlinarith [sq_nonneg (y - 3.999)]
  have hsub : gauss (y + 1/1000) * 0.00498 ≤ gauss y - gauss (y + 1/1000) := by
    have hexp : gauss y =
        gauss (y + 1/1000) * Real.exp (expArg (y + 1/1000) - expArg y) := by
      unfold gauss
      rw [← Real.exp_add]
      congr 1
      ring
    have hge : expArg (y + 1/1000) - expArg y + 1 ≤
        Real.exp (expArg (y + 1/1000) - expArg y) := Real.add_one_le_exp _
    nlinarith
  rw [logistic_sub]
  have hden : (0:ℝ) < (1 + gauss y) * (1 + gauss (y + 1/1000)) := by positivity
  have hdenle : (1 + gauss y) * (1 + gauss (y + 1/1000)) ≤ (1 + 1/20000)^2 := by
    nlinarith
  have hnum : (1:ℝ)/25400000 * 0.00498 ≤ gauss y - gauss (y + 1/1000) := by nlinarith
  have hfinal : (1:ℝ)/25400000 * 0.00498 / (1 + 1/20000)^2 ≤
      (gauss y - gauss (y + 1/1000)) / ((1 + gauss y) * (1 + gauss (y + 1/1000))) :=
    div_le_div₀ (by nlinarith) hnum hden hdenle
  have : (0.0000000001 : ℝ) < (1:ℝ)/25400000 * 0.00498 / (1 + 1/20000)^2 := by
    norm_num
  linarith

theorem expArg_neg (y : ℝ) : expArg (-y) = -expArg y := by unfold expArg; ring

theorem gauss_neg (y : ℝ) : gauss (-y) = (gauss y)⁻¹ := by
  unfold gauss
  rw [expArg_neg, neg_neg, ← Real.exp_neg, neg_neg]

theorem logistic_neg (y : ℝ) : logistic (-y) = 1 - logistic y := by
  have h := gauss_pos y
  unfold logistic
  rw [gauss_neg]
  field_simp
  ring

theorem integral_mk (mu sigma x : ℝ) :
    (NormalDist.mk mu sigma).integral x = logistic ((x - mu) / sigma) :=
  integral_eq_logistic _ _

/-- A 1 ms gap strictly beyond the epsilon, on the right side of the
cold-start mean (`(a-5000)/1000` in the band of `logistic_gap`). -/
theorem gap_ms_pos (a : ℝ) (h1 : 3.999 ≤ (a - 5000) / 1000)
    (h2 : (a - 5000) / 1000 ≤ 5) :
    0.0000000001 < (NormalDist.mk 5000 1000).integral a -
      (NormalDist.mk 5000 1000).integral (a + 1) := by
  rw [integral_mk, integral_mk]
  have e1 : (a + 1 - 5000) / 1000 = (a - 5000) / 1000 + 1/1000 := by ring
  rw [e1]
  exact logistic_gap _ h1 h2

/-- The mirrored version for points on the left side of the mean. -/
theorem gap_ms_neg (a : ℝ) (h1 : 3.999 ≤ (4999 - a) / 1000)
    (h2 : (4999 - a) / 1000 ≤ 5) :
    0.0000000001 < (NormalDist.mk 5000 1000).integral a -
      (NormalDist.mk 5000 1000).integral (a + 1) := by
  rw [integral_mk, integral_mk]
  have e1 : (a - 5000) / 1000 = -((4999 - a) / 1000 + 1/1000) := by ring
  have e2 : (a + 1 - 5000) / 1000 = -((4999 - a) / 1000) := by ring
  rw [e1, e2, logistic_neg, logistic_neg]
  have := logistic_gap ((4999 - a) / 1000) h1 h2
  linarith

/-- The bisection loop only ever returns a midpoint that passed the
`|v - integral(mid)| ≤ eps` convergence test. -/
theorem integral_inv_go_exit (d : NormalDist) (v : ℝ) :
    ∀ (fuel : ℕ) (l u m r : ℝ), d.integral_inv_go v fuel l u m = some r →
      |v - d.integral r| ≤ 0.0000000001 := by
  intro fuel
  induction fuel with
  | zero => intro l u m r h; cases h
  | succ fuel ih =>
    intro l u m r h
    unfold NormalDist.integral_inv_go at h
    split at h
    · split at h
      · exact ih _ _ _ _ h
      · exact ih _ _ _ _ h
    · next hcond =>
      cases h
      push_neg at hcond
      exact hcond

/-- If the tail probability falls by more than the epsilon over the 1 ms on
each side of `x0`, then a midpoint passing the convergence test for the
target `integral x0` is within 1 ms of `x0`. -/
theorem integral_exit_near (d : NormalDist) (hs : 0 < d.sigma) (x0 m : ℝ)
    (hgapL : 0.0000000001 < d.integral (x0 - 1) - d.integral x0)
    (hgapR : 0.0000000001 < d.integral x0 - d.integral (x0 + 1))
    (hm : |d.integral x0 - d.integral m| ≤ 0.0000000001) :
    |m - x0| < 1 := by
  rw [abs_le] at hm
  rw [abs_lt]
  constructor
  · by_contra hc
    push_neg at hc
    have := integral_anti d hs m (x0 - 1) (by linarith)
    linarith [hm.1]
  · by_contra hc
    push_neg at hc
    have := integral_anti d hs (x0 + 1) m (by linarith)
    linarith [hm.2]

theorem returns_near (d : NormalDist) (hs : 0 < d.sigma) (x0 : ℝ)
    (hgapL : 0.0000000001 < d.integral (x0 - 1) - d.integral x0)
    (hgapR : 0.0000000001 < d.integral x0 - d.integral (x0 + 1))
    (fuel : ℕ) :
    ReturnsNear x0 (d.integral_inv (d.integral x0) fuel) := by
  unfold NormalDist.integral_inv
  rw [if_pos (integral_pos d x0)]
  cases hgo : d.integral_inv_go (d.integral x0) fuel (-1e18) 1e18 0 with
  | none => exact trivial
  | some m =>
    show |m - x0| < 1
    exact integral_exit_near d hs x0 m hgapL hgapR
      (integral_inv_go_exit d (d.integral x0) fuel _ _ _ m hgo)

/-! ## Termination of the bisection (C5)

Working over exact reals, the loop of `integral_inv` always exits for a
target `v ∈ (0,1]` and any snapshot with sane parameters: each unconverged
iteration moves one bound to a midpoint that failed the convergence test on
its side, the interval halves every step, and once it is narrower than
`1e-55` the loop invariant is contradictory — so the loop cannot still be
running, and 250 iterations are enough from the initial `±1e18` interval. -/

theorem logistic_small (t : ℝ) (ht : 998000000 ≤ t) :
    logistic t < 0.0000000001 := by
  have h0 : (0:ℝ) ≤ t := by linarith
  have h1 : 1.5976 * t ≤ expArg t := by
    unfold expArg
    nlinarith [mul_nonneg (mul_nonneg h0 h0) h0]
  have h2 : (1594400000:ℝ) ≤ expArg t := by nlinarith
  have h3 : gauss t ≤ Real.exp (-(1594400000:ℝ)) := by
    unfold gauss
    exact Real.exp_le_exp.mpr (by linarith)
  have h4 : Real.exp (-(1594400000:ℝ)) ≤ 4 / (1594400000:ℝ)^2 := by
    have h5 := sq_quarter_le_exp (z := (1594400000:ℝ)) (by norm_num)
    have h6 : Real.exp (-(1594400000:ℝ)) = 1 / Real.exp (1594400000:ℝ) := by
      rw [Real.exp_neg]; field_simp
    rw [h6, div_le_div_iff₀ (Real.exp_pos _) (by norm_num)]
    nlinarith [Real.exp_pos (1594400000:ℝ)]
  have h7 : logistic t ≤ gauss t := by
    unfold logistic
    apply div_le_self (gauss_pos t).le
    linarith [gauss_pos t]
  have h8 : (4:ℝ) / (1594400000:ℝ)^2 < 0.0000000001 := by norm_num
  linarith

theorem logistic_lipschitz (y1 y2 : ℝ) (h : y1 ≤ y2) :
    logistic y1 - logistic y2 ≤ expArg y2 - expArg y1 := by
  have hd : 0 ≤ expArg y2 - expArg y1 := by
    rcases eq_or_lt_of_le h with rfl | hlt
    · linarith
    · linarith [expArg_strictMono hlt]
  have hE1 := gauss_pos y1
  have hE2 := gauss_pos y2
  have hE2eq : gauss y2 = gauss y1 * Real.exp (-(expArg y2 - expArg y1)) := by
    unfold gauss
    rw [← Real.exp_add]
    congr 1
    ring
  have hexp : 1 - (expArg y2 - expArg y1) ≤ Real.exp (-(expArg y2 - expArg y1)) := by
    have := Real.add_one_le_exp (-(expArg y2 - expArg y1))
    linarith
  rw [logistic_sub, div_le_iff₀ (by positivity)]
  have hexp_pos : (0:ℝ) < Real.exp (-(expArg y2 - expArg y1)) := Real.exp_pos _
  nlinarith [mul_pos hE1 hexp_pos, mul_nonneg hd (mul_pos hE1 hE2).le,
    mul_nonneg hd hE1.le, mul_nonneg hd hE2.le]

theorem expArg_diff_le (y1 y2 Y : ℝ) (h12 : y1 ≤ y2) (hb1 : |y1| ≤ Y)
    (hb2 : |y2| ≤ Y) :
    expArg y2 - expArg y1 ≤ (y2 - y1) * (1.5976 + 0.211698 * Y^2) := by
  obtain ⟨h1a, h1b⟩ := abs_le.mp hb1
  obtain ⟨h2a, h2b⟩ := abs_le.mp hb2
  have h3 : y1^2 + y1*y2 + y2^2 ≤ 3*Y^2 := by
    nlinarith [mul_nonneg (sub_nonneg.mpr h1b) (sub_nonneg.mpr h2b),
      mul_nonneg (by linarith : (0:ℝ) ≤ Y + y1) (by linarith : (0:ℝ) ≤ Y + y2),
      sq_nonneg (y1 - y2), sq_nonneg (y1 + y2)]
  have h4 : (0:ℝ) ≤ y2 - y1 := by linarith
  have h5 : expArg y2 - expArg y1 =
      (y2 - y1) * (1.5976 + 0.070566 * (y1^2 + y1*y2 + y2^2)) := by
    unfold expArg
    ring
  rw [h5]
  have h6 : 1.5976 + 0.070566 * (y1^2 + y1*y2 + y2^2) ≤
      1.5976 + 0.211698 * Y^2 := by nlinarith
  exact mul_le_mul_of_nonneg_left h6 h4

theorem integral_far_right (d : NormalDist) (hmu : |d.mu| ≤ 1e9)
    (hs1 : 1/1000 ≤ d.sigma) (hs2 : d.sigma ≤ 1e9) (x : ℝ)
    (hx : 1e18 - 1 ≤ x) : d.integral x < 0.0000000001 := by
  have hs0 : 0 < d.sigma := by linarith
  rw [integral_eq_logistic]
  apply logistic_small
  have hmu2 := abs_le.mp hmu
  have h1 : (998000000:ℝ) * d.sigma ≤ x - d.mu := by nlinarith
  rw [le_div_iff₀ hs0]
  linarith

theorem integral_far_left (d : NormalDist) (hmu : |d.mu| ≤ 1e9)
    (hs1 : 1/1000 ≤ d.sigma) (hs2 : d.sigma ≤ 1e9) (x : ℝ)
    (hx : x ≤ -1e18 + 1) : 1 - 0.0000000001 < d.integral x := by
  have hs0 : 0 < d.sigma := by linarith
  rw [integral_eq_logistic]
  have hflip : (x - d.mu) / d.sigma = -((d.mu - x) / d.sigma) := by ring
  rw [hflip, logistic_neg]
  have hsm : logistic ((d.mu - x) / d.sigma) < 0.0000000001 := by
    apply logistic_small
    have hmu2 := abs_le.mp hmu
    have h1 : (998000000:ℝ) * d.sigma ≤ d.mu - x := by nlinarith
    rw [le_div_iff₀ hs0]
    linarith
  linarith

theorem y_abs_le (d : NormalDist) (hmu : |d.mu| ≤ 1e9) (hs1 : 1/1000 ≤ d.sigma)
    (x : ℝ) (hx1 : -1e18 ≤ x) (hx2 : x ≤ 1e18) :
    |(x - d.mu) / d.sigma| ≤ 1.000000001e21 := by
  have hs0 : 0 < d.sigma := by linarith
  rw [abs_div, abs_of_pos hs0]
  have hmu2 := abs_le.mp hmu
  have h1 : |x - d.mu| ≤ 1.000000001e18 := by
    rw [abs_le]
    constructor <;> linarith
  calc |x - d.mu| / d.sigma ≤ 1.000000001e18 / (1/1000) :=
        div_le_div₀ (by norm_num) h1 (by norm_num) hs1
    _ = 1.000000001e21 := by norm_num

/-- A bisection state narrower than `1e-55` cannot satisfy the loop
invariant: the pristine bounds are `2e18` apart, a single updated bound near
`±1e18` contradicts the far-tail estimates, and two updated bounds would
force the tail probability to fall by more than `2e-10` over a `1e-55`-wide
interval, beating its Lipschitz bound. -/
theorem bisect_inv_narrow_false (d : NormalDist) (v : ℝ) (hmu : |d.mu| ≤ 1e9)
    (hs1 : 1/1000 ≤ d.sigma) (hs2 : d.sigma ≤ 1e9) (hv0 : 0 < v) (hv1 : v ≤ 1)
    (l u : ℝ) (hinv : BisectInv d v l u) (hw : u - l ≤ 1e-55) : False := by
  have hs0 : 0 < d.sigma := by linarith
  obtain ⟨hl, hu, hlu, hlb, hub⟩ := hinv
  rcases hl with hl | hl
  · rcases hu with hu | hu
    · rw [hl, hu] at hw
      norm_num at hw
    · have hu2 : u ≤ -1e18 + 1 := by rw [hl] at hw; linarith
      have := integral_far_left d hmu hs1 hs2 u hu2
      linarith
  · rcases hu with hu | hu
    · have hl2 : 1e18 - 1 ≤ l := by rw [hu] at hw; linarith
      have := integral_far_right d hmu hs1 hs2 l hl2
      linarith
    · have hy1 := y_abs_le d hmu hs1 l hlb (by linarith)
      have hy2 := y_abs_le d hmu hs1 u (by linarith) hub
      have hyle : (l - d.mu) / d.sigma ≤ (u - d.mu) / d.sigma := by
        apply div_le_div_of_nonneg_right ?_ hs0.le
        linarith
      have hlips : d.integral l - d.integral u ≤
          expArg ((u - d.mu) / d.sigma) - expArg ((l - d.mu) / d.sigma) := by
        rw [integral_eq_logistic, integral_eq_logistic]
        exact logistic_lipschitz _ _ hyle
      have hdiff := expArg_diff_le _ _ _ hyle hy1 hy2
      have hstep : (u - d.mu) / d.sigma - (l - d.mu) / d.sigma ≤ 1e-52 := by
        have heq : (u - d.mu) / d.sigma - (l - d.mu) / d.sigma =
            (u - l) / d.sigma := by ring
        rw [heq]
        calc (u - l) / d.sigma ≤ 1e-55 / (1/1000) :=
              div_le_div₀ (by norm_num) hw (by norm_num) hs1
          _ = 1e-52 := by norm_num
      have hCge : (0:ℝ) ≤ 1.5976 + 0.211698 * (1.000000001e21:ℝ)^2 := by positivity
      have hC : ((u - d.mu) / d.sigma - (l - d.mu) / d.sigma) *
            (1.5976 + 0.211698 * (1.000000001e21:ℝ)^2) ≤
          1e-52 * (1.5976 + 0.211698 * (1.000000001e21:ℝ)^2) :=
        mul_le_mul_of_nonneg_right hstep hCge
      have hnum : (1e-52:ℝ) * (1.5976 + 0.211698 * (1.000000001e21:ℝ)^2) <
          2 * 0.0000000001 := by norm_num
      linarith

/-- As long as the invariant holds and the interval is wider than `1e-55`,
the bisection loop returns a value within `fuel` iterations once
`width ≤ 1e-55 * 2^fuel`. -/
theorem bisect_go_succeeds (d : NormalDist) (v : ℝ) (hmu : |d.mu| ≤ 1e9)
    (hs1 : 1/1000 ≤ d.sigma) (hs2 : d.sigma ≤ 1e9) (hv0 : 0 < v) (hv1 : v ≤ 1) :
    ∀ (fuel : ℕ) (l u : ℝ), BisectInv d v l u → 1e-55 < u - l →
      u - l ≤ 1e-55 * 2^fuel →
      ∃ m, d.integral_inv_go v fuel l u ((l + u) / 2) = some m := by
  intro fuel
  induction fuel with
  | zero =>
    intro l u hinv hgt hle
    norm_num at hle
    linarith
  | succ fuel ih =>
    intro l u hinv hgt hle
    obtain ⟨hl, hu, hlu, hlb, hub⟩ := hinv
    unfold NormalDist.integral_inv_go
    split
    · next hcond =>
      have hmid1 : l < (l + u) / 2 := by linarith
      have hmid2 : (l + u) / 2 < u := by linarith
      have hpow : (1e-55:ℝ) * 2^(fuel+1) = 1e-55 * 2^fuel * 2 := by
        rw [pow_succ]
        ring
      split
      · next hlt =>
        have hmstrict : d.integral ((l + u) / 2) < v - 0.0000000001 := by
          rw [abs_of_pos (by linarith)] at hcond
          linarith
        have hinv2 : BisectInv d v l ((l + u) / 2) :=
          ⟨hl, Or.inr hmstrict, hmid1, hlb, by linarith⟩
        by_cases hwide : 1e-55 < (l + u) / 2 - l
        · exact ih l ((l + u) / 2) hinv2 hwide (by rw [hpow] at hle; linarith)
        · exact absurd (bisect_inv_narrow_false d v hmu hs1 hs2 hv0 hv1 l
            ((l + u) / 2) hinv2 (by linarith)) not_false
      · next hge =>
        push_neg at hge
        have hmstrict : v + 0.0000000001 < d.integral ((l + u) / 2) := by
          rw [abs_of_nonpos (by linarith)] at hcond
          linarith
        have hinv2 : BisectInv d v ((l + u) / 2) u :=
          ⟨Or.inr hmstrict, hu, hmid2, by linarith, hub⟩
        by_cases hwide : 1e-55 < u - (l + u) / 2
        · have := ih ((l + u) / 2) u hinv2 hwide (by rw [hpow] at hle; linarith)
          exact this
        · exact absurd (bisect_inv_narrow_false d v hmu hs1 hs2 hv0 hv1
            ((l + u) / 2) u hinv2 (by linarith)) not_false
    · exact ⟨_, rfl⟩

/-- For every target `v ∈ (0,1]` and every snapshot with `|mu| ≤ 1e9` and
`1 μs ≤ sigma ≤ 1e9` ms, the bisection returns a value within 250
iterations. -/
theorem bisect_terminates (d : NormalDist) (v : ℝ) (hmu : |d.mu| ≤ 1e9)
    (hs1 : 1/1000 ≤ d.sigma) (hs2 : d.sigma ≤ 1e9) (hv0 : 0 < v) (hv1 : v ≤ 1) :
    ∃ m, d.integral_inv v 250 = AssertOr.ok (some m) := by
  unfold NormalDist.integral_inv
  rw [if_pos hv0]
  obtain ⟨m, hm⟩ := bisect_go_succeeds d v hmu hs1 hs2 hv0 hv1 250 (-1e18) 1e18
    ⟨Or.inl rfl, Or.inl rfl, by norm_num, le_refl _, le_refl _⟩
    (by norm_num) (by norm_num)
  refine ⟨m, ?_⟩
  have h0 : ((-1e18:ℝ) + 1e18) / 2 = 0 := by norm_num
  rw [h0] at hm
  rw [hm]

/-- C8: for the cold-start snapshot (mean 5000 ms, sigma 1000 ms) and each
`x0 ∈ {1, 10, 100, 1000, 10000}` ms, whatever value the bisection
`integral_inv (integral x0)` returns — after any number of iterations — lies
strictly within 1 ms of `x0`; and the bisection does return a value (for any
real `x0`, within 250 iterations). -/
theorem c8_bisection_roundtrip (t0 : Instant) :
    (PingWindow.new t0).normal_dist = NormalDist.mk 5000 1000 ∧
    (∀ x0 : ℝ, ∃ m, (NormalDist.mk 5000 1000).integral_inv
      ((NormalDist.mk 5000 1000).integral x0) 250 = AssertOr.ok (some m)) ∧
    ∀ fuel : ℕ,
      ReturnsNear 1 ((NormalDist.mk 5000 1000).integral_inv
        ((NormalDist.mk 5000 1000).integral 1) fuel) ∧
      ReturnsNear 10 ((NormalDist.mk 5000 1000).integral_inv
        ((NormalDist.mk 5000 1000).integral 10) fuel) ∧
      ReturnsNear 100 ((NormalDist.mk 5000 1000).integral_inv
        ((NormalDist.mk 5000 1000).integral 100) fuel) ∧
      ReturnsNear 1000 ((NormalDist.mk 5000 1000).integral_inv
        ((NormalDist.mk 5000 1000).integral 1000) fuel) ∧
      ReturnsNear 10000 ((NormalDist.mk 5000 1000).integral_inv
        ((NormalDist.mk 5000 1000).integral 10000) fuel) := by
  refine ⟨normal_dist_new t0,
    fun x0 => bisect_terminates _ _ (by norm_num) (by norm_num) (by norm_num)
      (integral_pos _ _) (integral_lt_one _ _).le,
    fun fuel => ⟨?_, ?_, ?_, ?_, ?_⟩⟩
  · refine returns_near _ (by norm_num) 1 ?_ ?_ fuel
    · have h := gap_ms_neg 0 (by norm_num) (by norm_num)
      norm_num at h ⊢
      exact h
    · have h := gap_ms_neg 1 (by norm_num) (by norm_num)
      norm_num at h ⊢
      exact h
  · refine returns_near _ (by norm_num) 10 ?_ ?_ fuel
    · have h := gap_ms_neg 9 (by norm_num) (by norm_num)
      norm_num at h ⊢
      exact h
    · have h := gap_ms_neg 10 (by norm_num) (by norm_num)
      norm_num at h ⊢
      exact h
  · refine returns_near _ (by norm_num) 100 ?_ ?_ fuel
    · have h := gap_ms_neg 99 (by norm_num) (by norm_num)
      norm_num at h ⊢
      exact h
    · have h := gap_ms_neg 100 (by norm_num) (by norm_num)
      norm_num at h ⊢
      exact h
  · refine returns_near _ (by norm_num) 1000 ?_ ?_ fuel
    · have h := gap_ms_neg 999 (by norm_num) (by norm_num)
      norm_num at h ⊢
      exact h
    · have h := gap_ms_neg 1000 (by norm_num) (by norm_num)
      norm_num at h ⊢
      exact h
  · refine returns_near _ (by norm_num) 10000 ?_ ?_ fuel
    · have h := gap_ms_pos 9999 (by norm_num) (by norm_num)
      norm_num at h ⊢
      exact h
    · have h := gap_ms_pos 10000 (by norm_num) (by norm_num)
      norm_num at h ⊢
      exact h

/-- C5: for every target probability `v ∈ (0,1]` and every snapshot with
`|mu| ≤ 1e9` ms and `0.001 ≤ sigma ≤ 1e9` ms, the bisection of `integral_inv`
terminates (within 250 iterations, over exact reals), and the midpoint it
returns always satisfies the convergence test `|v - integral(mid)| ≤ 1e-10` —
the loop's only exit is that test. -/
theorem c5_bisection_terminates (d : NormalDist) (v : ℝ) (hmu : |d.mu| ≤ 1e9)
    (hs1 : 1/1000 ≤ d.sigma) (hs2 : d.sigma ≤ 1e9) (hv0 : 0 < v) (hv1 : v ≤ 1) :
    ∃ m, d.integral_inv v 250 = AssertOr.ok (some m) ∧
      |v - d.integral m| ≤ 0.0000000001 := by
  obtain ⟨m, hm⟩ := bisect_terminates d v hmu hs1 hs2 hv0 hv1
  refine ⟨m, hm, ?_⟩
  unfold NormalDist.integral_inv at hm
  rw [if_pos hv0] at hm
  injection hm with hgo
  exact integral_inv_go_exit d v 250 _ _ _ m hgo

/-- C5 witness: the cold-start snapshot with target probability 1/2. -/
theorem c5_witness :
    |(NormalDist.mk 5000 1000).mu| ≤ 1e9 ∧
    1/1000 ≤ (NormalDist.mk 5000 1000).sigma ∧
    (NormalDist.mk 5000 1000).sigma ≤ 1e9 ∧ (0:ℝ) < 1/2 ∧ (1/2:ℝ) ≤ 1 ∧
    ∃ m, (NormalDist.mk 5000 1000).integral_inv (1/2) 250 = AssertOr.ok (some m) ∧
      |1/2 - (NormalDist.mk 5000 1000).integral m| ≤ 0.0000000001 :=
  ⟨by norm_num, by norm_num, by norm_num, by norm_num, by norm_num,
    c5_bisection_terminates (NormalDist.mk 5000 1000) (1/2) (by norm_num)
      (by norm_num) (by norm_num) (by norm_num) (by norm_num)⟩

/-! ## The phi_inv base mismatch (C2) -/

theorem exp_three_le : Real.exp 3 ≤ 21 := by
  have h1 : Real.exp ((3:ℕ) * (1:ℝ)) = Real.exp 1 ^ 3 := Real.exp_nat_mul _ 3
  have h2 : ((3:ℕ):ℝ) * 1 = 3 := by push_cast; ring
  have h3 : Real.exp 1 ^ 3 ≤ (2.7182818286:ℝ)^3 :=
    pow_le_pow_left₀ (Real.exp_pos 1).le Real.exp_one_lt_d9.le 3
  have h4 : (2.7182818286:ℝ)^3 ≤ 21 := by norm_num
  calc Real.exp 3 = Real.exp 1 ^ 3 := by rw [← h1, h2]
    _ ≤ 21 := le_trans h3 h4

theorem exp_three_ge : (20:ℝ) ≤ Real.exp 3 := by
  have h1 : Real.exp ((3:ℕ) * (1:ℝ)) = Real.exp 1 ^ 3 := Real.exp_nat_mul _ 3
  have h2 : ((3:ℕ):ℝ) * 1 = 3 := by push_cast; ring
  have h3 : (2.7182818283:ℝ)^3 ≤ Real.exp 1 ^ 3 :=
    pow_le_pow_left₀ (by norm_num) Real.exp_one_gt_d9.le 3
  have h4 : (20:ℝ) ≤ (2.7182818283:ℝ)^3 := by norm_num
  calc (20:ℝ) ≤ (2.7182818283:ℝ)^3 := h4
    _ ≤ Real.exp 1 ^ 3 := h3
    _ = Real.exp 3 := by rw [← h1, h2]

theorem integral_ge_half (d : NormalDist) (hs : 0 < d.sigma) (x : ℝ)
    (hx : x ≤ d.mu) : 1/2 ≤ d.integral x := by
  rw [integral_eq_logistic]
  have hy : (x - d.mu) / d.sigma ≤ 0 := by
    rw [div_nonpos_iff]
    right
    exact ⟨by linarith, hs.le⟩
  have hc : (0:ℝ) ≤ 1.5976 + 0.070566 * ((x - d.mu) / d.sigma) *
      ((x - d.mu) / d.sigma) := by
    nlinarith [mul_self_nonneg ((x - d.mu) / d.sigma)]
  have harg : expArg ((x - d.mu) / d.sigma) ≤ 0 := by
    unfold expArg
    nlinarith [mul_nonneg hc (neg_nonneg.mpr hy)]
  have hgauss : 1 ≤ gauss ((x - d.mu) / d.sigma) := by
    unfold gauss
    calc (1:ℝ) = Real.exp 0 := Real.exp_zero.symm
      _ ≤ _ := Real.exp_le_exp.mpr (by linarith)
  unfold logistic
  rw [le_div_iff₀ (by linarith [gauss_pos ((x - d.mu) / d.sigma)])]
  linarith

theorem as_millis_from_millis (k : ℕ) :
    Duration.as_millis (Duration.from_millis k) = k := by
  unfold Duration.as_millis Duration.from_millis
  omega

theorem neg_logb_lt_two {I : ℝ} (hI : 1/100 < I) : -Real.logb 10 I < 2 := by
  have h2 : Real.logb 10 (1/100) = -2 := by
    rw [show (1/100:ℝ) = ((10:ℝ)^(2:ℕ))⁻¹ by norm_num, Real.logb_inv,
      Real.logb_pow, Real.logb_self_eq_one (by norm_num : (1:ℝ) < 10)]
    norm_num
  have h3 := Real.logb_lt_logb (b := 10) (by norm_num)
    (by norm_num : (0:ℝ) < 1/100) hI
  rw [h2] at h3
  linarith

/-- C2: the deadline computed by `phi_inv` does not invert `phi`.  At the
suspicion threshold 3 on the cold-start snapshot, any deadline `phi_inv`
returns has `phi(deadline) < 2` — not `≈ 3` — because `prob_from_phi` uses
`exp(-phi)` where inverting `phi = -log10(tail)` would need `10^(-phi)`; and
`phi_inv 3` does return a deadline within 250 iterations. -/
theorem c2_phi_inv_not_inverse (t0 : Instant) (fuel : ℕ) :
    PhiAtMostOn ((PingWindow.new t0).normal_dist) 2
      (((PingWindow.new t0).normal_dist).phi_inv 3 fuel) ∧
    ∃ dur, ((PingWindow.new t0).normal_dist).phi_inv 3 250 =
      AssertOr.ok (some dur) := by
  rw [normal_dist_new]
  have hs : (0:ℝ) < (NormalDist.mk 5000 1000).sigma := by norm_num
  have hv0 : (0:ℝ) < prob_from_phi 3 := Real.exp_pos _
  have hv1 : prob_from_phi 3 ≤ 1 := by
    unfold prob_from_phi
    calc Real.exp (-3) ≤ Real.exp 0 := Real.exp_le_exp.mpr (by norm_num)
      _ = 1 := Real.exp_zero
  have hiv : ∀ f : ℕ, (NormalDist.mk 5000 1000).integral_inv (prob_from_phi 3) f =
      AssertOr.ok ((NormalDist.mk 5000 1000).integral_inv_go (prob_from_phi 3) f
        (-1e18) 1e18 0) := by
    intro f
    unfold NormalDist.integral_inv
    rw [if_pos hv0]
  constructor
  · unfold NormalDist.phi_inv
    rw [hiv fuel]
    cases hgo : (NormalDist.mk 5000 1000).integral_inv_go (prob_from_phi 3) fuel
        (-1e18) 1e18 0 with
    | none => exact trivial
    | some x =>
      show ∃ p, (NormalDist.mk 5000 1000).phi (Duration.from_millis ⌊x⌋₊) =
        AssertOr.ok p ∧ p < 2
      have hexit := integral_inv_go_exit _ _ fuel _ _ _ x hgo
      have he3a : (1:ℝ)/21 ≤ Real.exp (-3) := by
        rw [Real.exp_neg, inv_eq_one_div]
        exact one_div_le_one_div_of_le (Real.exp_pos 3) exp_three_le
      have he3b : Real.exp (-3) ≤ 1/20 := by
        rw [Real.exp_neg, inv_eq_one_div]
        exact one_div_le_one_div_of_le (by norm_num) exp_three_ge
      have hprob : prob_from_phi 3 = Real.exp (-3) := rfl
      rw [hprob] at hexit
      have habs := abs_le.mp hexit
      have hIlow : (1:ℝ)/21 - 0.0000000001 ≤
          (NormalDist.mk 5000 1000).integral x := by linarith [habs.2]
      have hIhigh : (NormalDist.mk 5000 1000).integral x ≤ 1/20 + 0.0000000001 := by
        linarith [habs.1]
      have hxpos : (0:ℝ) ≤ x := by
        by_contra hneg
        push_neg at hneg
        have : x ≤ (NormalDist.mk 5000 1000).mu := by
          show x ≤ (5000:ℝ)
          linarith
        have := integral_ge_half _ hs x this
        linarith
      have hfloor : ((⌊x⌋₊ : ℕ) : ℝ) ≤ x := Nat.floor_le hxpos
      have hIfloor : (NormalDist.mk 5000 1000).integral x ≤
          (NormalDist.mk 5000 1000).integral ((⌊x⌋₊ : ℕ) : ℝ) :=
        integral_anti _ hs _ _ hfloor
      have hIf : (1:ℝ)/100 < (NormalDist.mk 5000 1000).integral ((⌊x⌋₊ : ℕ) : ℝ) := by
        have : (1:ℝ)/21 - 0.0000000001 > 1/100 := by norm_num
        linarith
      have hphi : (NormalDist.mk 5000 1000).phi (Duration.from_millis ⌊x⌋₊) =
          AssertOr.ok (-Real.logb 10
            ((NormalDist.mk 5000 1000).integral ((⌊x⌋₊ : ℕ) : ℝ))) := by
        have hp := phi_eq (NormalDist.mk 5000 1000) (Duration.from_millis ⌊x⌋₊)
          (integral_bounds _ _)
        rwa [as_millis_from_millis] at hp
      exact ⟨_, hphi, neg_logb_lt_two hIf⟩
  · obtain ⟨m, hm⟩ := bisect_terminates (NormalDist.mk 5000 1000) (prob_from_phi 3)
      (by norm_num) (by norm_num) (by norm_num) hv0 hv1
    refine ⟨Duration.from_millis ⌊m⌋₊, ?_⟩
    unfold NormalDist.phi_inv
    rw [hm]

end PhiDetector
